import Mathlib

/-!
Verification of the box-decoding and NMS postprocessing core of MiniYOLAF
(src/models/MiniYOLAF.py).  Floating-point scalars are modelled as rationals;
the transcendental functions `torch.sigmoid` and `torch.exp` are abstracted as
function parameters, since every claim about the decoder is structural in them.
-/

namespace YOLAF

open scoped List

/-- A corner-form bounding box, one row of the `dets` array in `nms`
(src/models/MiniYOLAF.py lines 127-130): `x1 = xmin, y1 = ymin, x2 = xmax,
y2 = ymax`. -/
structure Box where
  x1 : ℚ
  y1 : ℚ
  x2 : ℚ
  y2 : ℚ
  deriving DecidableEq, Repr, Inhabited

/-- Embeds `areas = (x2 - x1) * (y2 - y1)` (line 132). -/
def area (b : Box) : ℚ := (b.x2 - b.x1) * (b.y2 - b.y1)

/-- The numeric floor `1e-28` applied to the intersection width and height
(lines 144-145). -/
def floorEps : ℚ := 1 / 10 ^ 28

/-- The overlap ratio the suppression loop computes between boxes `i` and `j`
of `dets` (lines 139-149): intersection rectangle via max/min of the corners,
width and height floored at `1e-28`, then
`inter / (areas[i] + areas[j] - inter)`.  Out-of-range indices read the
default box; the loop only ever uses indices produced by `argsort`. -/
def ovr (dets : List Box) (i j : ℕ) : ℚ :=
  let a := dets.getD i default
  let b := dets.getD j default
  let xx1 := max a.x1 b.x1
  let yy1 := max a.y1 b.y1
  let xx2 := min a.x2 b.x2
  let yy2 := min a.y2 b.y2
  let w := max floorEps (xx2 - xx1)
  let h := max floorEps (yy2 - yy1)
  let inter := w * h
  inter / (area a + area b - inter)

/-- The ordering realised by `scores.argsort()[::-1]` (line 133): index `i`
comes no later than index `j` exactly when `i` has the strictly larger score,
or the scores are equal and `i` is the larger index (a stable ascending
argsort puts equal scores in index-ascending order, and the reversal flips
that to index-descending). -/
def ordGe (scores : List ℚ) (i j : ℕ) : Prop :=
  scores.getD j 0 < scores.getD i 0 ∨
    (scores.getD i 0 = scores.getD j 0 ∧ j ≤ i)

instance (scores : List ℚ) : DecidableRel (ordGe scores) := fun i j => by
  unfold ordGe; infer_instance

/-- Embeds `order = scores.argsort()[::-1]` (line 133): the candidate indices
`0, ..., N-1` arranged by score descending, ties broken by original index
descending.  `ordGe scores` is a total antisymmetric order on indices, so the
sorted arrangement is unique and any sorting algorithm yields it. -/
def argsortDesc (scores : List ℚ) : List ℕ :=
  (List.range scores.length).insertionSort (ordGe scores)

/-- The greedy suppression loop of `nms` (lines 135-153), with an explicit
fuel argument to make the recursion structural.  Each round pops the first
remaining index `i`, appends it to `keep`, and retains among the remaining
indices exactly those `j` with `ovr dets i j ≤ thresh`
(`inds = np.where(ovr <= self.nms_thresh)[0]; order = order[inds + 1]`,
lines 151-152).  With `fuel ≥` the length of the order list the fuel never
runs out, since every round shortens the list by at least one. -/
def nmsLoopF (dets : List Box) (thresh : ℚ) : ℕ → List ℕ → List ℕ
  | _, [] => []
  | 0, _ :: _ => []
  | fuel + 1, i :: rest =>
    i :: nmsLoopF dets thresh fuel (rest.filter fun j => decide (ovr dets i j ≤ thresh))

/-- Embeds `MiniYOLAF.nms` (lines 125-154): sort the candidate indices by score
descending and run the greedy suppression loop. -/
def nms (dets : List Box) (scores : List ℚ) (thresh : ℚ) : List ℕ :=
  nmsLoopF dets thresh (argsortDesc scores).length (argsortDesc scores)

/-- Embeds `keep = np.where(scores >= self.conf_thresh)` (line 167): on a
one-dimensional array, `np.where` returns the satisfying indices in
ascending order. -/
def confKeep (prob : List ℚ) (conf : ℚ) : List ℕ :=
  (List.range prob.length).filter fun i => decide (conf ≤ prob.getD i 0)

/-- The mask round-trip of `postprocess` (lines 172-176):
`keep = np.zeros(n); keep[c_keep] = 1; keep = np.where(keep > 0)` — the
indices `0 ≤ i < n` that occur in `c_keep`, in ascending order. -/
def maskWhere (n : ℕ) (c_keep : List ℕ) : List ℕ :=
  (List.range n).filter fun i => decide (i ∈ c_keep)

/-- Embeds `bbox_pred = bbox_pred[keep]` (line 168): numpy fancy indexing by
the ascending index list returned by `np.where`. -/
def confBoxes (bbox : List Box) (prob : List ℚ) (conf : ℚ) : List Box :=
  (confKeep prob conf).map fun i => bbox.getD i default

/-- Embeds `scores = scores[keep]` (line 169). -/
def confScores (prob : List ℚ) (conf : ℚ) : List ℚ :=
  (confKeep prob conf).map fun i => prob.getD i 0

/-- Embeds `MiniYOLAF.postprocess` (lines 156-180): filter the (box, score) pairs by
`score >= conf_thresh` (numpy fancy indexing keeps ascending index order),
run `nms` on the survivors, scatter the kept indices into a 0/1 mask and
re-extract with `np.where`, and return the resulting boxes and scores. -/
def postprocess (bbox : List Box) (prob : List ℚ) (conf thresh : ℚ) :
    List Box × List ℚ :=
  let bbox1 := confBoxes bbox prob conf
  let scores1 := confScores prob conf
  let c_keep := nms bbox1 scores1 thresh
  let keep2 := maskWhere bbox1.length c_keep
  (keep2.map fun i => bbox1.getD i default, keep2.map fun i => scores1.getD i 0)

/-- One row of the per-slot grid table: the broadcast combination of
`grid_cell` (cell coordinates, shape `[1, HW, 1, 2]`), `stride_tensor`
(shape `[1, HW, A, 2]`) and `all_anchors_wh` (shape `[1, HW*A, 2]`) that
`decode_xywh` consumes for one candidate slot. -/
structure GridRow where
  cellx : ℚ
  celly : ℚ
  stride : ℚ
  aw : ℚ
  ah : ℚ
  deriving DecidableEq, Repr, Inhabited

/-- One slot of the raw regression tensor `txtytwth_pred`
(`[tx, ty, tw, th]`, line 92). -/
structure Raw where
  tx : ℚ
  ty : ℚ
  tw : ℚ
  th : ℚ
  deriving DecidableEq, Repr, Inhabited

/-- One row of the center-form output of `decode_xywh` (`xywh_pred`). -/
structure XYWH where
  cx : ℚ
  cy : ℚ
  w : ℚ
  h : ℚ
  deriving DecidableEq, Repr, Inhabited

/-- Embeds `MiniYOLAF.decode_xywh` (lines 89-104) for a single image, with the
per-slot grid table already flattened alongside the regression slots:
`c_xy_pred = (sigmoid(t[..., :2]) + grid_cell) * stride_tensor` and
`b_wh_pred = exp(t[..., 2:]) * all_anchors_wh`, concatenated per slot.
`sig` and `ex` stand for `torch.sigmoid` and `torch.exp`. -/
def decode_xywh (sig ex : ℚ → ℚ) (grid : List GridRow) (pred : List Raw) :
    List XYWH :=
  List.zipWith
    (fun g t =>
      ⟨(sig t.tx + g.cellx) * g.stride, (sig t.ty + g.celly) * g.stride,
        ex t.tw * g.aw, ex t.th * g.ah⟩)
    grid pred

/-- Embeds `MiniYOLAF.decode_boxes` (lines 106-123): center-form to corner-form,
`x1 = cx - w/2, y1 = cy - h/2, x2 = cx + w/2, y2 = cy + h/2`. -/
def decode_boxes (sig ex : ℚ → ℚ) (grid : List GridRow) (pred : List Raw) :
    List Box :=
  (decode_xywh sig ex grid pred).map fun p =>
    ⟨p.cx - p.w / 2, p.cy - p.h / 2, p.cx + p.w / 2, p.cy + p.h / 2⟩

/-- Spec-side decode formula (spec §4.2), for comparison with the
source-translated `decode_boxes`: per slot,
`cx = (sigmoid(tx) + cell_x) * stride`, `cy = (sigmoid(ty) + cell_y) * stride`,
`w = anchor_w * exp(tw)`, `h = anchor_h * exp(th)`, and corner-form
`xmin = cx - w/2, ymin = cy - h/2, xmax = cx + w/2, ymax = cy + h/2`. -/
def specDecodeBox (sig ex : ℚ → ℚ) (g : GridRow) (t : Raw) : Box :=
  let cx := (sig t.tx + g.cellx) * g.stride
  let cy := (sig t.ty + g.celly) * g.stride
  let w := g.aw * ex t.tw
  let h := g.ah * ex t.th
  ⟨cx - w / 2, cy - h / 2, cx + w / 2, cy + h / 2⟩

/-- The normalisation applied in `forward` (line 219):
`torch.clamp(decoded / scale_torch, 0., 1.)` on each coordinate, where
`scale_torch` holds the input resolution `S` in all four components. -/
def clampBox (S : ℚ) (b : Box) : Box :=
  ⟨min 1 (max 0 (b.x1 / S)), min 1 (max 0 (b.y1 / S)),
    min 1 (max 0 (b.x2 / S)), min 1 (max 0 (b.y2 / S))⟩

/-- The box pipeline of `forward` in test mode (lines 214-222): decode, divide
by the input resolution, clamp every coordinate to `[0, 1]`. -/
def forwardBoxes (sig ex : ℚ → ℚ) (grid : List GridRow) (S : ℚ)
    (pred : List Raw) : List Box :=
  (decode_boxes sig ex grid pred).map (clampBox S)

/-- Embeds `self.stride = [8, 16, 32]` (line 17). -/
def strides : List ℕ := [8, 16, 32]

/-- The flattened per-slot grid table of one scale, as produced by
`create_grid` (lines 61-76) and consumed after broadcasting: cells are
enumerated row-major (`torch.meshgrid([arange n, arange n])` with `grid_y`
outer and `grid_x` inner, then `stack([grid_x, grid_y])`), and within each
cell one row per anchor of that scale, in declared order
(`anchor_size[ind].repeat(hs*ws, 1, 1)`); the stride is constant over the
scale (`torch.ones(...) * s`). -/
def gridTableScale (S s : ℕ) (anchors : List (ℚ × ℚ)) : List GridRow :=
  (List.range (S / s)).flatMap fun y =>
    (List.range (S / s)).flatMap fun x =>
      anchors.map fun a => ⟨(x : ℚ), (y : ℚ), (s : ℚ), a.1, a.2⟩

/-- The per-scale anchor groups:
`torch.tensor(anchor_size).view(3, len(anchor_size) // 3, 2)` (line 18)
splits the flat anchor list into three equal groups of
`A = len(anchor_size) // 3` pairs. -/
def viewAnchors (anchor_size : List (ℚ × ℚ)) : List (List (ℚ × ℚ)) :=
  let A := anchor_size.length / 3
  [anchor_size.take A, (anchor_size.drop A).take A, (anchor_size.drop (2 * A)).take A]

/-- Embeds `MiniYOLAF.create_grid` (lines 56-82), flattened to the per-slot table:
the three per-scale tables concatenated in stride order
(`torch.cat(..., dim=1)` over scale 0, then 1, then 2). -/
def create_grid (S : ℕ) (anchor_size : List (ℚ × ℚ)) : List GridRow :=
  let A := anchor_size.length / 3
  gridTableScale S 8 (anchor_size.take A) ++
    gridTableScale S 16 ((anchor_size.drop A).take A) ++
      gridTableScale S 32 ((anchor_size.drop (2 * A)).take A)

/-- The error kinds named by the specification's error-handling design.
Neither is defined or raised anywhere in src/models/MiniYOLAF.py. -/
inductive DetError where
  | configError : DetError
  | shapeError : DetError
  deriving DecidableEq, Repr

/-- The configuration state stored by `MiniYOLAF.__init__`
(lines 15-16): `self.conf_thresh = conf_thresh; self.nms_thresh = nms_thresh`. -/
structure MiniYOLAFConfig where
  conf_thresh : ℚ
  nms_thresh : ℚ
  deriving DecidableEq, Repr

/-- The fallible view of `MiniYOLAF.__init__` (lines 10-23) with respect to
threshold handling: the constructor stores `conf_thresh` and `nms_thresh`
verbatim and contains no range check and no raise statement, so construction
succeeds for every pair of threshold values.  (The torch module setup on the
remaining lines is network layer composition, out of scope per the spec.) -/
def initMiniYOLAF (conf nmsT : ℚ) : Except DetError MiniYOLAFConfig :=
  Except.ok ⟨conf, nmsT⟩

/-! ### Helper lemmas -/

theorem ovr_comm (dets : List Box) (i j : ℕ) : ovr dets i j = ovr dets j i := by
  simp only [ovr]
  rw [max_comm (dets.getD i default).x1 (dets.getD j default).x1,
    max_comm (dets.getD i default).y1 (dets.getD j default).y1,
    min_comm (dets.getD i default).x2 (dets.getD j default).x2,
    min_comm (dets.getD i default).y2 (dets.getD j default).y2,
    add_comm (area (dets.getD i default)) (area (dets.getD j default))]

theorem nmsLoopF_sublist (dets : List Box) (t : ℚ) :
    ∀ (fuel : ℕ) (l : List ℕ), nmsLoopF dets t fuel l <+ l := by
  intro fuel
  induction fuel with
  | zero => intro l; cases l <;> simp [nmsLoopF]
  | succ n ih =>
    intro l
    cases l with
    | nil => simp [nmsLoopF]
    | cons i rest =>
      simp only [nmsLoopF]
      exact List.Sublist.cons₂ i ((ih _).trans (List.filter_sublist rest))

theorem nmsLoopF_pairwise (dets : List Box) (t : ℚ) :
    ∀ (fuel : ℕ) (l : List ℕ),
      (nmsLoopF dets t fuel l).Pairwise fun a b => ovr dets a b ≤ t := by
  intro fuel
  induction fuel with
  | zero => intro l; cases l <;> simp [nmsLoopF]
  | succ n ih =>
    intro l
    cases l with
    | nil => simp [nmsLoopF]
    | cons i rest =>
      simp only [nmsLoopF]
      refine List.Pairwise.cons ?_ (ih _)
      intro b hb
      have hmem : b ∈ rest.filter fun j => decide (ovr dets i j ≤ t) :=
        (nmsLoopF_sublist dets t n _).subset hb
      simpa using List.of_mem_filter hmem

theorem pairwise_mem_or {α : Type} {R : α → α → Prop} {l : List α}
    (hl : l.Pairwise R) :
    ∀ {a b : α}, a ∈ l → b ∈ l → a ≠ b → R a b ∨ R b a := by
  induction hl with
  | nil => intro a b ha; simp at ha
  | cons hhead htail ih =>
    intro a b ha hb hne
    rcases List.mem_cons.mp ha with ha1 | ha2
    · rcases List.mem_cons.mp hb with hb1 | hb2
      · exact absurd (ha1.trans hb1.symm) hne
      · exact Or.inl (by rw [ha1]; exact hhead _ hb2)
    · rcases List.mem_cons.mp hb with hb1 | hb2
      · exact Or.inr (by rw [hb1]; exact hhead _ ha2)
      · exact ih ha2 hb2 hne

theorem pair_sublist_of_pairwise {α : Type} {R : α → α → Prop} {l : List α}
    (hl : l.Pairwise R) :
    ∀ {a b : α}, a ∈ l → b ∈ l → a ≠ b → ¬R a b → [b, a] <+ l := by
  induction hl with
  | nil => intro a b ha; simp at ha
  | cons hhead htail ih =>
    intro a b ha hb hne hnr
    rcases List.mem_cons.mp ha with ha1 | ha2
    · rcases List.mem_cons.mp hb with hb1 | hb2
      · exact absurd (ha1.trans hb1.symm) hne
      · exact absurd (by rw [ha1]; exact hhead _ hb2) hnr
    · rcases List.mem_cons.mp hb with hb1 | hb2
      · rw [hb1]
        exact List.Sublist.cons₂ _ (List.singleton_sublist.mpr ha2)
      · exact List.Sublist.cons _ (ih ha2 hb2 hne hnr)

theorem ordGe_total (scores : List ℚ) :
    ∀ i j, ordGe scores i j ∨ ordGe scores j i := by
  intro i j
  rcases lt_trichotomy (scores.getD i 0) (scores.getD j 0) with h | h | h
  · exact Or.inr (Or.inl h)
  · rcases Nat.le_total j i with hji | hij
    · exact Or.inl (Or.inr ⟨h, hji⟩)
    · exact Or.inr (Or.inr ⟨h.symm, hij⟩)
  · exact Or.inl (Or.inl h)

theorem ordGe_trans (scores : List ℚ) :
    ∀ a b c, ordGe scores a b → ordGe scores b c → ordGe scores a c := by
  intro a b c hab hbc
  rcases hab with h1 | h1 <;> rcases hbc with h2 | h2
  · exact Or.inl (h2.trans h1)
  · exact Or.inl (h2.1 ▸ h1)
  · exact Or.inl (h1.1.symm ▸ h2)
  · exact Or.inr ⟨h1.1.trans h2.1, h2.2.trans h1.2⟩

theorem argsort_perm (scores : List ℚ) :
    (argsortDesc scores).Perm (List.range scores.length) :=
  List.perm_insertionSort _ _

theorem mem_argsort (scores : List ℚ) (i : ℕ) :
    i ∈ argsortDesc scores ↔ i < scores.length := by
  rw [(argsort_perm scores).mem_iff, List.mem_range]

theorem argsort_nodup (scores : List ℚ) : (argsortDesc scores).Nodup :=
  ((argsort_perm scores).nodup_iff).mpr (List.nodup_range _)

theorem argsort_length (scores : List ℚ) :
    (argsortDesc scores).length = scores.length := by
  rw [(argsort_perm scores).length_eq, List.length_range]

theorem argsort_sorted (scores : List ℚ) :
    (argsortDesc scores).Pairwise (ordGe scores) := by
  haveI : IsTotal ℕ (ordGe scores) := ⟨ordGe_total scores⟩
  haveI : IsTrans ℕ (ordGe scores) := ⟨fun a b c => ordGe_trans scores a b c⟩
  exact List.sorted_insertionSort _ _

theorem range_map_getD {α : Type} (d : α) :
    ∀ l : List α, ((List.range l.length).map fun i => l.getD i d) = l := by
  intro l
  induction l with
  | nil => rfl
  | cons x xs ih =>
    rw [List.length_cons, List.range_succ_eq_map, List.map_cons, List.map_map]
    simp only [Function.comp_def, List.getD_cons_succ, List.getD_cons_zero]
    rw [ih]

theorem range_map_getD_zip {α β : Type} (da : α) (db : β) :
    ∀ (l : List α) (m : List β), l.length = m.length →
      ((List.range m.length).map fun i => (l.getD i da, m.getD i db)) = l.zip m := by
  intro l
  induction l with
  | nil =>
    intro m hm
    cases m with
    | nil => rfl
    | cons y ys => simp at hm
  | cons x xs ih =>
    intro m hm
    cases m with
    | nil => simp at hm
    | cons y ys =>
      rw [List.length_cons, List.range_succ_eq_map, List.map_cons, List.map_map]
      simp only [Function.comp_def, List.getD_cons_succ, List.getD_cons_zero,
        List.zip_cons_cons]
      rw [ih ys (by simpa using hm)]

theorem confScores_eq_filter (prob : List ℚ) (conf : ℚ) :
    confScores prob conf = prob.filter fun s => decide (conf ≤ s) := by
  unfold confScores confKeep
  conv_rhs => rw [← range_map_getD 0 prob, List.filter_map]
  rfl

theorem confBoxes_eq_filter (bbox : List Box) (prob : List ℚ) (conf : ℚ)
    (hlen : bbox.length = prob.length) :
    confBoxes bbox prob conf
      = ((bbox.zip prob).filter fun q => decide (conf ≤ q.2)).map Prod.fst := by
  unfold confBoxes confKeep
  conv_rhs =>
    rw [← range_map_getD_zip default 0 bbox prob hlen, List.filter_map, List.map_map]
  rfl

theorem maskWhere_sorted (n : ℕ) (c : List ℕ) :
    (maskWhere n c).Pairwise (· < ·) :=
  (List.sorted_lt_range n).filter _

theorem maskWhere_perm (n : ℕ) (c : List ℕ) (hnd : c.Nodup)
    (hlt : ∀ x ∈ c, x < n) : (maskWhere n c).Perm c := by
  unfold maskWhere
  rw [List.perm_ext_iff_of_nodup ((List.nodup_range n).filter _) hnd]
  intro a
  constructor
  · intro ha
    simpa using (List.mem_filter.mp ha).2
  · intro ha
    exact List.mem_filter.mpr ⟨List.mem_range.mpr (hlt a ha), by simpa using ha⟩

theorem flatMap_const_length {β : Type} (c : ℕ) :
    ∀ (n : ℕ) (f : ℕ → List β), (∀ y, (f y).length = c) →
      ((List.range n).flatMap f).length = n * c := by
  intro n
  induction n with
  | zero => intro f hf; simp
  | succ m ih =>
    intro f hf
    rw [List.range_succ_eq_map, List.flatMap_cons, List.flatMap_map,
      List.length_append, hf 0, ih (fun a => f (Nat.succ a)) (fun a => hf _),
      Nat.succ_mul]
    omega

theorem flatMap_range_getD {β : Type} (d : β) (c : ℕ) :
    ∀ (n : ℕ) (f : ℕ → List β), (∀ y, (f y).length = c) →
      ∀ y r : ℕ, y < n → r < c →
        ((List.range n).flatMap f).getD (y * c + r) d = (f y).getD r d := by
  intro n
  induction n with
  | zero => intro f hf y r hy hr; exact absurd hy (Nat.not_lt_zero y)
  | succ m ih =>
    intro f hf y r hy hr
    rw [List.range_succ_eq_map, List.flatMap_cons, List.flatMap_map]
    cases y with
    | zero =>
      rw [Nat.zero_mul, Nat.zero_add]
      exact List.getD_append _ _ _ _ (by rw [hf 0]; exact hr)
    | succ z =>
      have hidx : (z + 1) * c + r = (f 0).length + (z * c + r) := by
        rw [hf 0, Nat.succ_mul]
        omega
      rw [hidx, List.getD_append_right _ _ _ _ (Nat.le_add_right _ _),
        Nat.add_sub_cancel_left]
      exact ih (fun a => f (Nat.succ a)) (fun a => hf _) z r (by omega) hr

theorem gridTableScale_length (S s : ℕ) (anchors : List (ℚ × ℚ)) :
    (gridTableScale S s anchors).length = S / s * (S / s) * anchors.length := by
  unfold gridTableScale
  rw [flatMap_const_length (S / s * anchors.length) (S / s) _
      (fun y => flatMap_const_length anchors.length (S / s) _
        (fun x => List.length_map _ _))]
  ring

theorem gridTableScale_getD (S s : ℕ) (anchors : List (ℚ × ℚ)) (y x k : ℕ)
    (hy : y < S / s) (hx : x < S / s) (hk : k < anchors.length) :
    (gridTableScale S s anchors).getD
        ((y * (S / s) + x) * anchors.length + k) default
      = ⟨(x : ℚ), (y : ℚ), (s : ℚ), (anchors.getD k default).1,
          (anchors.getD k default).2⟩ := by
  unfold gridTableScale
  have hinner : ∀ yy : ℕ,
      ((List.range (S / s)).flatMap fun xx =>
        anchors.map fun a =>
          (⟨(xx : ℚ), (yy : ℚ), (s : ℚ), a.1, a.2⟩ : GridRow)).length
        = S / s * anchors.length :=
    fun yy => flatMap_const_length anchors.length (S / s) _
      (fun xx => List.length_map _ _)
  have hbound : x * anchors.length + k < S / s * anchors.length := by
    have h1 : x * anchors.length + k < (x + 1) * anchors.length := by
      rw [Nat.succ_mul]
      omega
    have h2 : (x + 1) * anchors.length ≤ S / s * anchors.length :=
      Nat.mul_le_mul_right _ hx
    omega
  have hidx : (y * (S / s) + x) * anchors.length + k
      = y * (S / s * anchors.length) + (x * anchors.length + k) := by ring
  rw [hidx,
    flatMap_range_getD default (S / s * anchors.length) (S / s) _ hinner y _ hy
      hbound,
    flatMap_range_getD default anchors.length (S / s) _
      (fun xx => List.length_map _ _) x k hx hk,
    List.getD_eq_getElem _ _ (by rw [List.length_map]; exact hk),
    List.getElem_map, List.getD_eq_getElem _ _ hk]

/-! ### Claim theorems -/

/-- C1: for every list of corner-form boxes, matching scores and overlap
threshold in (0,1), any two indices kept by `nms` where `j` has the strictly
higher score overlap by at most the threshold under the code's IoU (retention
is `IoU ≤ threshold`, intersection width and height floored at `1e-28`);
in fact the kept set is pairwise non-suppressing. -/
theorem nms_suppression_sound (dets : List Box) (scores : List ℚ) (thresh : ℚ)
    (h0 : 0 < thresh) (h1 : thresh < 1) (i j : ℕ)
    (hi : i ∈ nms dets scores thresh) (hj : j ∈ nms dets scores thresh)
    (hsc : scores.getD i 0 < scores.getD j 0) :
    ovr dets j i ≤ thresh := by
  have hne : j ≠ i := by
    intro h
    rw [h] at hsc
    exact lt_irrefl _ hsc
  have hp := nmsLoopF_pairwise dets thresh (argsortDesc scores).length (argsortDesc scores)
  rcases pairwise_mem_or hp hj hi hne with h | h
  · exact h
  · rw [ovr_comm]
    exact h

/-- Witness for C1 on the spec's constructed example: boxes A, B, C with
scores 0.9, 0.8, 0.5 and threshold 0.3; `nms` keeps A (index 0) and C
(index 2), and the kept pair overlaps by at most the threshold. -/
theorem nms_suppression_sound_witness :
    (0 : ℚ) < 3 / 10 ∧ (3 : ℚ) / 10 < 1 ∧
      (2 ∈ nms [⟨0, 0, 10, 10⟩, ⟨1, 1, 9, 9⟩, ⟨100, 100, 110, 110⟩]
          [9 / 10, 8 / 10, 1 / 2] (3 / 10)) ∧
      ovr [⟨0, 0, 10, 10⟩, ⟨1, 1, 9, 9⟩, ⟨100, 100, 110, 110⟩] 0 2 ≤ 3 / 10 :=
  ⟨by norm_num, by norm_num, by with_unfolding_all decide,
    nms_suppression_sound [⟨0, 0, 10, 10⟩, ⟨1, 1, 9, 9⟩, ⟨100, 100, 110, 110⟩]
      [9 / 10, 8 / 10, 1 / 2] (3 / 10) (by norm_num) (by norm_num) 2 0
      (by with_unfolding_all decide) (by with_unfolding_all decide)
      (by with_unfolding_all decide)⟩

/-- C3 counterexample: two identical boxes with exactly equal scores.  The
candidate ordering puts the LARGER original index first
(`argsortDesc [1/2, 1/2] = [1, 0]`, not `[0, 1]`), so the later-in-input box
is kept, contradicting the claim that the earlier-in-input box is evaluated
first. -/
theorem nms_tiebreak_cex :
    argsortDesc [1 / 2, 1 / 2] = [1, 0] ∧
      nms [⟨0, 0, 10, 10⟩, ⟨0, 0, 10, 10⟩] [1 / 2, 1 / 2] (3 / 10) = [1] := by
  constructor
  · with_unfolding_all decide
  · with_unfolding_all decide

/-- C3 amended: when two boxes have exactly equal scores, the candidate
ordering used by the greedy loop places the box with the LARGER original
index before the one with the smaller index (a reversed stable ascending
argsort breaks ties by original index descending), so the later-in-input box
is kept or used as suppressor first. -/
theorem argsort_tiebreak_desc (scores : List ℚ) (i j : ℕ) (hij : i < j)
    (hsc : scores.getD i 0 = scores.getD j 0) (hj : j < scores.length) :
    [j, i] <+ argsortDesc scores := by
  have hi : i < scores.length := hij.trans hj
  have hmi : i ∈ argsortDesc scores := (mem_argsort scores i).mpr hi
  have hmj : j ∈ argsortDesc scores := (mem_argsort scores j).mpr hj
  have hnr : ¬ordGe scores i j := by
    intro h
    rcases h with h | h
    · rw [hsc] at h
      exact lt_irrefl _ h
    · omega
  exact pair_sublist_of_pairwise (argsort_sorted scores) hmi hmj (Nat.ne_of_lt hij) hnr

/-- Witness for the amended C3 at the concrete tie `scores = [1/2, 1/2]`. -/
theorem argsort_tiebreak_desc_witness :
    (0 : ℕ) < 1 ∧ [1, 0] <+ argsortDesc [1 / 2, 1 / 2] :=
  ⟨Nat.zero_lt_one,
    argsort_tiebreak_desc [1 / 2, 1 / 2] 0 1 Nat.zero_lt_one
      (by with_unfolding_all decide) (by decide)⟩

/-- C9: on any non-empty input, the keep list of `nms` is non-empty, its
indices are distinct valid indices into the input arrays, and its first
element is an index of maximal score. -/
theorem nms_keep_basic (dets : List Box) (scores : List ℚ) (t : ℚ)
    (hne : scores ≠ []) (hlen : dets.length = scores.length) :
    nms dets scores t ≠ [] ∧ (nms dets scores t).Nodup ∧
      (∀ j ∈ nms dets scores t, j < dets.length) ∧
      ∀ j, j < scores.length →
        scores.getD j 0 ≤ scores.getD ((nms dets scores t).getD 0 0) 0 := by
  have hsub : nms dets scores t <+ argsortDesc scores :=
    nmsLoopF_sublist dets t (argsortDesc scores).length (argsortDesc scores)
  have hlpos : 0 < (argsortDesc scores).length := by
    rw [argsort_length]
    exact List.length_pos.mpr hne
  obtain ⟨o, tl, ho⟩ := List.exists_cons_of_ne_nil (List.ne_nil_of_length_pos hlpos)
  have hnms : nms dets scores t
      = o :: nmsLoopF dets t tl.length (tl.filter fun j => decide (ovr dets o j ≤ t)) := by
    rw [nms, ho, List.length_cons]
    rfl
  refine ⟨by rw [hnms]; exact List.cons_ne_nil _ _,
    hsub.nodup (argsort_nodup scores), ?_, ?_⟩
  · intro j hj
    have := (mem_argsort scores j).mp (hsub.subset hj)
    omega
  · intro j hjlen
    have hjmem : j ∈ argsortDesc scores := (mem_argsort scores j).mpr hjlen
    have hhead : (nms dets scores t).getD 0 0 = o := by
      rw [hnms]
      rfl
    rw [hhead]
    rw [ho] at hjmem
    rcases List.mem_cons.mp hjmem with h | h
    · rw [h]
    · have hsorted := argsort_sorted scores
      rw [ho] at hsorted
      have := (List.pairwise_cons.mp hsorted).1 j h
      rcases this with h2 | h2
      · exact le_of_lt h2
      · exact le_of_eq h2.1.symm

/-- Witness for C9 at a concrete one-box input. -/
theorem nms_keep_basic_witness :
    ([1 / 2] : List ℚ) ≠ [] ∧
      (nms [⟨0, 0, 10, 10⟩] [1 / 2] (3 / 10) ≠ [] ∧
        (nms [⟨0, 0, 10, 10⟩] [1 / 2] (3 / 10)).Nodup ∧
        (∀ j ∈ nms [⟨0, 0, 10, 10⟩] [1 / 2] (3 / 10),
          j < ([⟨0, 0, 10, 10⟩] : List Box).length) ∧
        ∀ j, j < ([1 / 2] : List ℚ).length →
          ([1 / 2] : List ℚ).getD j 0 ≤
            ([1 / 2] : List ℚ).getD
              ((nms [⟨0, 0, 10, 10⟩] [1 / 2] (3 / 10)).getD 0 0) 0) :=
  ⟨by simp, nms_keep_basic [⟨0, 0, 10, 10⟩] [1 / 2] (3 / 10) (by simp) rfl⟩

/-- C2 counterexample: two disjoint boxes where the second has the higher
score.  `nms` selects index 1 first (`keep = [1, 0]`), but `postprocess`
returns the pairs in ascending original order (box 0 first), so the NMS
selection order is not preserved. -/
theorem postprocess_order_cex :
    nms [⟨0, 0, 10, 10⟩, ⟨20, 20, 30, 30⟩] [1 / 2, 9 / 10] (3 / 10) = [1, 0] ∧
      postprocess [⟨0, 0, 10, 10⟩, ⟨20, 20, 30, 30⟩] [1 / 2, 9 / 10] (1 / 100) (3 / 10)
        = ([⟨0, 0, 10, 10⟩, ⟨20, 20, 30, 30⟩], [1 / 2, 9 / 10]) := by
  constructor
  · with_unfolding_all decide
  · with_unfolding_all decide

/-- C2 amended: `postprocess` returns the boxes and scores at exactly the
indices `nms` kept (the extracted index list is a permutation of the keep
list), but in strictly ascending original-index order — the 0/1 mask and
`np.where` round-trip discards the greedy selection order. -/
theorem postprocess_keeps_ascending (bbox : List Box) (prob : List ℚ)
    (conf thresh : ℚ) :
    (maskWhere (confBoxes bbox prob conf).length
        (nms (confBoxes bbox prob conf) (confScores prob conf) thresh)).Pairwise
      (· < ·) ∧
    (maskWhere (confBoxes bbox prob conf).length
        (nms (confBoxes bbox prob conf) (confScores prob conf) thresh)).Perm
      (nms (confBoxes bbox prob conf) (confScores prob conf) thresh) ∧
    postprocess bbox prob conf thresh
      = ((maskWhere (confBoxes bbox prob conf).length
            (nms (confBoxes bbox prob conf) (confScores prob conf) thresh)).map
          fun i => (confBoxes bbox prob conf).getD i default,
         (maskWhere (confBoxes bbox prob conf).length
            (nms (confBoxes bbox prob conf) (confScores prob conf) thresh)).map
          fun i => (confScores prob conf).getD i 0) := by
  refine ⟨maskWhere_sorted _ _, maskWhere_perm _ _ ?_ ?_, rfl⟩
  · exact (nmsLoopF_sublist _ _ _ _).nodup (argsort_nodup _)
  · intro x hx
    have hx2 := (mem_argsort (confScores prob conf) x).mp
      ((nmsLoopF_sublist _ _ _ _).subset hx)
    have hxl : (confScores prob conf).length = (confBoxes bbox prob conf).length := by
      simp [confScores, confBoxes]
    omega

/-- C4 counterexample: `conf_thresh = 2` lies outside the open interval
(0,1), yet construction succeeds — `__init__` performs no threshold
validation and no `ConfigError` exists in the code. -/
theorem init_configerror_cex :
    ¬((0 : ℚ) < 2 ∧ (2 : ℚ) < 1) ∧
      initMiniYOLAF 2 (3 / 10) = Except.ok ⟨2, 3 / 10⟩ := by
  constructor
  · intro h
    have h2 := h.2
    norm_num at h2
  · rfl

/-- C4 amended: construction stores any threshold values without range
validation and never raises (no `ConfigError` is defined or thrown), and
`postprocess` performs no length check (no `ShapeError` exists): a call with
fewer scores than boxes returns normally, silently restricted to the indices
the score array covers. -/
theorem init_no_validation (conf nmsT : ℚ) :
    initMiniYOLAF conf nmsT = Except.ok ⟨conf, nmsT⟩ ∧
      postprocess [⟨0, 0, 10, 10⟩, ⟨1, 1, 2, 2⟩] [9 / 10] (1 / 100) (3 / 10)
        = ([⟨0, 0, 10, 10⟩], [9 / 10]) :=
  ⟨rfl, by with_unfolding_all decide⟩

/-- C5: the (box, score) pairs `postprocess` hands to `nms` are exactly those
with `score ≥ conf_thresh` (in original order), every score in the output is
at least `conf_thresh` (so a detection below the threshold never appears),
and when nothing survives the filter the result is empty rather than an
error. -/
theorem postprocess_conf_gate (bbox : List Box) (prob : List ℚ)
    (conf thresh : ℚ) (hlen : bbox.length = prob.length) :
    confScores prob conf = (prob.filter fun s => decide (conf ≤ s)) ∧
      confBoxes bbox prob conf
        = ((bbox.zip prob).filter fun q => decide (conf ≤ q.2)).map Prod.fst ∧
      (∀ s ∈ (postprocess bbox prob conf thresh).2, conf ≤ s) ∧
      ((prob.filter fun s => decide (conf ≤ s)) = [] →
        postprocess bbox prob conf thresh = ([], [])) := by
  refine ⟨confScores_eq_filter prob conf, confBoxes_eq_filter bbox prob conf hlen,
    ?_, ?_⟩
  · intro s hs
    simp only [postprocess] at hs
    rcases List.mem_map.mp hs with ⟨i, hi, rfl⟩
    have hi1 : i < (confBoxes bbox prob conf).length :=
      List.mem_range.mp (List.mem_filter.mp hi).1
    have hi2 : i < (confScores prob conf).length := by
      simp only [confScores, confBoxes, List.length_map] at hi1 ⊢
      exact hi1
    rw [List.getD_eq_getElem _ _ hi2]
    have hi3 : i < (confKeep prob conf).length := by
      simpa [confScores, List.length_map] using hi2
    simp only [confScores]
    rw [List.getElem_map]
    have hmem : (confKeep prob conf)[i] ∈ confKeep prob conf :=
      List.getElem_mem _
    simpa using (List.mem_filter.mp hmem).2
  · intro h
    have h1 : confScores prob conf = [] := by
      rw [confScores_eq_filter prob conf]
      exact h
    have h2 : confKeep prob conf = [] := by
      simp only [confScores] at h1
      exact List.map_eq_nil_iff.mp h1
    simp only [postprocess, confBoxes, confScores]
    rw [h2]
    rfl

/-- Witness for C5 at a concrete input where nothing survives the filter. -/
theorem postprocess_conf_gate_witness :
    ([⟨0, 0, 10, 10⟩] : List Box).length = ([1 / 2] : List ℚ).length ∧
      (confScores [1 / 2] (3 / 4)
          = (([1 / 2] : List ℚ).filter fun s => decide ((3:ℚ)/4 ≤ s)) ∧
        confBoxes [⟨0, 0, 10, 10⟩] [1 / 2] (3 / 4)
          = ((([⟨0, 0, 10, 10⟩] : List Box).zip ([1 / 2] : List ℚ)).filter
              fun q => decide ((3:ℚ)/4 ≤ q.2)).map Prod.fst ∧
        (∀ s ∈ (postprocess [⟨0, 0, 10, 10⟩] [1 / 2] (3 / 4) (3 / 10)).2,
          (3:ℚ)/4 ≤ s) ∧
        ((([1 / 2] : List ℚ).filter fun s => decide ((3:ℚ)/4 ≤ s)) = [] →
          postprocess [⟨0, 0, 10, 10⟩] [1 / 2] (3 / 4) (3 / 10) = ([], []))) :=
  ⟨rfl, postprocess_conf_gate [⟨0, 0, 10, 10⟩] [1 / 2] (3 / 4) (3 / 10) rfl⟩

/-- C10: the greedy loop of `nms` terminates — each round recurses on the
filtered remainder, which is strictly shorter than the current order list
(the popped index alone accounts for the decrease), and the number of kept
indices (one per iteration) is at most the number N of input boxes. -/
theorem nms_terminates (dets : List Box) (scores : List ℚ) (t : ℚ) :
    (nms dets scores t).length ≤ scores.length ∧
      ∀ (i : ℕ) (rest : List ℕ),
        (rest.filter fun j => decide (ovr dets i j ≤ t)).length
          < (i :: rest).length := by
  constructor
  · calc (nms dets scores t).length
        ≤ (argsortDesc scores).length :=
          (nmsLoopF_sublist dets t (argsortDesc scores).length (argsortDesc scores)).length_le
      _ = scores.length := argsort_length scores
  · intro i rest
    rw [List.length_cons]
    exact Nat.lt_succ_of_le (List.length_filter_le _ _)

/-- C6: row `i` of the decoder output equals exactly the spec's per-slot
closed form — `cx = (sigmoid(tx) + cell_x) * stride`,
`cy = (sigmoid(ty) + cell_y) * stride`, `w = anchor_w * exp(tw)`,
`h = anchor_h * exp(th)`, corner-form by halving — computed from row `i` of
the grid table and row `i` of the raw input alone (no cross-row
dependency), for any realisation of sigmoid and exp. -/
theorem decode_boxes_per_slot (sig ex : ℚ → ℚ) (grid : List GridRow)
    (pred : List Raw) (hlen : grid.length = pred.length) (i : ℕ)
    (hi : i < pred.length) :
    (decode_boxes sig ex grid pred).getD i default
      = specDecodeBox sig ex (grid.getD i default) (pred.getD i default) := by
  have hig : i < grid.length := by omega
  have hi2 : i < (decode_xywh sig ex grid pred).length := by
    rw [decode_xywh, List.length_zipWith, hlen, Nat.min_self]
    exact hi
  have hi1 : i < (decode_boxes sig ex grid pred).length := by
    rw [decode_boxes, List.length_map]
    exact hi2
  rw [List.getD_eq_getElem _ _ hi1, List.getD_eq_getElem _ _ hig,
    List.getD_eq_getElem _ _ hi]
  simp only [decode_boxes, decode_xywh, List.getElem_map, List.getElem_zipWith,
    specDecodeBox, Box.mk.injEq]
  refine ⟨by ring, by ring, by ring, by ring⟩

/-- Witness for C6 at a concrete one-slot input (with the transcendentals
instantiated to the identity function). -/
theorem decode_boxes_per_slot_witness :
    ([⟨1, 2, 8, 3, 4⟩] : List GridRow).length = ([⟨0, 0, 0, 0⟩] : List Raw).length ∧
      (0 : ℕ) < ([⟨0, 0, 0, 0⟩] : List Raw).length ∧
      (decode_boxes id id [⟨1, 2, 8, 3, 4⟩] [⟨0, 0, 0, 0⟩]).getD 0 default
        = specDecodeBox id id
            (([⟨1, 2, 8, 3, 4⟩] : List GridRow).getD 0 default)
            (([⟨0, 0, 0, 0⟩] : List Raw).getD 0 default) :=
  ⟨rfl, Nat.zero_lt_one,
    decode_boxes_per_slot id id [⟨1, 2, 8, 3, 4⟩] [⟨0, 0, 0, 0⟩] rfl 0
      Nat.zero_lt_one⟩

/-- C7: every coordinate of every box produced by the forward pipeline
(decode, divide by the resolution, clamp) lies in the closed interval
[0, 1]; the clamp is a total hard floor/ceiling, applied for arbitrary
raw input, grid, resolution and transcendental realisations. -/
theorem forward_boxes_clamped (sig ex : ℚ → ℚ) (grid : List GridRow) (S : ℚ)
    (pred : List Raw) (b : Box) (hb : b ∈ forwardBoxes sig ex grid S pred) :
    (0 ≤ b.x1 ∧ b.x1 ≤ 1) ∧ (0 ≤ b.y1 ∧ b.y1 ≤ 1) ∧
      (0 ≤ b.x2 ∧ b.x2 ≤ 1) ∧ (0 ≤ b.y2 ∧ b.y2 ≤ 1) := by
  rcases List.mem_map.mp hb with ⟨c, _, rfl⟩
  simp only [clampBox]
  refine ⟨⟨?_, ?_⟩, ⟨?_, ?_⟩, ⟨?_, ?_⟩, ⟨?_, ?_⟩⟩ <;>
    first
      | exact le_min (by norm_num) (le_max_left 0 _)
      | exact min_le_left 1 _

/-- Witness for C7 at a concrete input: the single decoded box is
`[0, 0, 0, 0]` after clamping, and the theorem applies to it. -/
theorem forward_boxes_clamped_witness :
    ((⟨0, 0, 0, 0⟩ : Box) ∈ forwardBoxes id id [⟨0, 0, 8, 1, 1⟩] 32 [⟨0, 0, 0, 0⟩]) ∧
      ((0 ≤ (⟨0, 0, 0, 0⟩ : Box).x1 ∧ (⟨0, 0, 0, 0⟩ : Box).x1 ≤ 1) ∧
        (0 ≤ (⟨0, 0, 0, 0⟩ : Box).y1 ∧ (⟨0, 0, 0, 0⟩ : Box).y1 ≤ 1) ∧
        (0 ≤ (⟨0, 0, 0, 0⟩ : Box).x2 ∧ (⟨0, 0, 0, 0⟩ : Box).x2 ≤ 1) ∧
        (0 ≤ (⟨0, 0, 0, 0⟩ : Box).y2 ∧ (⟨0, 0, 0, 0⟩ : Box).y2 ≤ 1)) :=
  ⟨by with_unfolding_all decide,
    forward_boxes_clamped id id [⟨0, 0, 8, 1, 1⟩] 32 [⟨0, 0, 0, 0⟩]
      ⟨0, 0, 0, 0⟩ (by with_unfolding_all decide)⟩

/-- C8: for a resolution divisible by all strides and a flat anchor list of
`3 * A` pairs, the grid table is the concatenation of the three per-scale
tables in stride order (8, then 16, then 32), its total length is
`Σ (S / stride)² · A`, and within a scale the row for cell `(x, y)` and
anchor `k` sits at flattened position `(y * (S/s) + x) * A + k` — row-major
cells (y outer, x inner) with anchors in declared order. -/
theorem create_grid_table (S A : ℕ) (anchor_size : List (ℚ × ℚ))
    (ha : anchor_size.length = 3 * A) (hdiv : 8 ∣ S ∧ 16 ∣ S ∧ 32 ∣ S) :
    create_grid S anchor_size
        = gridTableScale S 8 (anchor_size.take A) ++
            (gridTableScale S 16 ((anchor_size.drop A).take A) ++
              gridTableScale S 32 ((anchor_size.drop (2 * A)).take A)) ∧
      (create_grid S anchor_size).length
        = S / 8 * (S / 8) * A + S / 16 * (S / 16) * A + S / 32 * (S / 32) * A ∧
      ∀ s ∈ strides, ∀ anchors : List (ℚ × ℚ), anchors.length = A →
        ∀ y x k : ℕ, y < S / s → x < S / s → k < A →
          (gridTableScale S s anchors).getD ((y * (S / s) + x) * A + k) default
            = ⟨(x : ℚ), (y : ℚ), (s : ℚ), (anchors.getD k default).1,
                (anchors.getD k default).2⟩ := by
  have hA : anchor_size.length / 3 = A := by omega
  have ht1 : (anchor_size.take A).length = A := by
    rw [List.length_take]
    omega
  have ht2 : ((anchor_size.drop A).take A).length = A := by
    rw [List.length_take, List.length_drop]
    omega
  have ht3 : ((anchor_size.drop (2 * A)).take A).length = A := by
    rw [List.length_take, List.length_drop]
    omega
  have hconcat : create_grid S anchor_size
      = gridTableScale S 8 (anchor_size.take A) ++
          (gridTableScale S 16 ((anchor_size.drop A).take A) ++
            gridTableScale S 32 ((anchor_size.drop (2 * A)).take A)) := by
    simp only [create_grid, hA, List.append_assoc]
  refine ⟨hconcat, ?_, ?_⟩
  · rw [hconcat, List.length_append, List.length_append, gridTableScale_length,
      gridTableScale_length, gridTableScale_length, ht1, ht2, ht3,
      Nat.add_assoc]
  · intro s hs anchors hAnch y x k hy hx hk
    rw [← hAnch]
    exact gridTableScale_getD S s anchors y x k hy hx (by omega)

/-- Witness for C8 at resolution 32 with one anchor per scale. -/
theorem create_grid_table_witness :
    ([((1 : ℚ), (2 : ℚ)), (3, 4), (5, 6)] : List (ℚ × ℚ)).length = 3 * 1 ∧
      (8 ∣ 32 ∧ 16 ∣ 32 ∧ 32 ∣ 32) ∧
      (create_grid 32 [((1 : ℚ), (2 : ℚ)), (3, 4), (5, 6)]
          = gridTableScale 32 8 (([((1 : ℚ), (2 : ℚ)), (3, 4), (5, 6)]).take 1) ++
              (gridTableScale 32 16
                ((([((1 : ℚ), (2 : ℚ)), (3, 4), (5, 6)]).drop 1).take 1) ++
                gridTableScale 32 32
                  ((([((1 : ℚ), (2 : ℚ)), (3, 4), (5, 6)]).drop (2 * 1)).take 1)) ∧
        (create_grid 32 [((1 : ℚ), (2 : ℚ)), (3, 4), (5, 6)]).length
          = 32 / 8 * (32 / 8) * 1 + 32 / 16 * (32 / 16) * 1 + 32 / 32 * (32 / 32) * 1 ∧
        ∀ s ∈ strides, ∀ anchors : List (ℚ × ℚ), anchors.length = 1 →
          ∀ y x k : ℕ, y < 32 / s → x < 32 / s → k < 1 →
            (gridTableScale 32 s anchors).getD ((y * (32 / s) + x) * 1 + k) default
              = ⟨(x : ℚ), (y : ℚ), (s : ℚ), (anchors.getD k default).1,
                  (anchors.getD k default).2⟩) :=
  ⟨rfl, by decide,
    create_grid_table 32 1 [((1 : ℚ), (2 : ℚ)), (3, 4), (5, 6)] rfl (by decide)⟩

end YOLAF
